import Mathlib

/-!
Verification development for the `ai-python-agent` repository
(`src/code_executor.py`, `src/agent.py`).

Code texts, prompts, messages and file contents are modelled as `List Char`
(Python `str` values are sequences of characters).  The operating system —
the spawned subprocess, the clock, and the filesystem — is modelled as an
explicit "world" value passed to the embedded functions, so that each
failure axis of the source (process completion, deadline overrun, spawn
failure, file-write failure) appears as an explicit case.
-/

namespace AIAgent

/-- A Python string, modelled as its list of characters. -/
abbrev Str := List Char

/-- The double-quote character. -/
def dq : Char := '"'

/-- The single-quote character (`\x27` in the source pattern). -/
def sq : Char := Char.ofNat 39

/-- The backslash character. -/
def bsl : Char := Char.ofNat 92

/-- Python's `\s` character class, on the ASCII range that the
source texts use: space, tab, newline, carriage return, vertical tab,
form feed. -/
def pyIsSpace (c : Char) : Bool :=
  c == ' ' || c == '\t' || c == '\n' || c == '\r' ||
  c == Char.ofNat 11 || c == Char.ofNat 12

/-- The character class `["\x27]` of the source pattern: a double or a
single quote. -/
def isQuote (c : Char) : Bool := c == dq || c == sq

/-- Greedy `\s*`: drop the longest whitespace run at the head. -/
def dropWs : Str → Str
  | [] => []
  | c :: rest => if pyIsSpace c then dropWs rest else c :: rest

/-- The tail `\s*\)` of the pattern at `s`: skip whitespace, then require
a closing parenthesis; returns the remainder after it.  (Backtracking
into the greedy `\s*` can never succeed because the dropped characters
are whitespace, not `)`.) -/
def wsThenParen (s : Str) : Option Str :=
  match dropWs s with
  | c :: rest => if c = ')' then some rest else none
  | [] => none

/-- The lazy `(.*?)["\x27]` of the pattern followed by `\s*\)`, applied
just after the opening quote.  Python's lazy `.*?` tries the shortest
content first: at each character, if it is a quote and the rest of the
pattern matches after it, that quote closes the literal; otherwise the
character (any character except a newline, including a quote) is
consumed as content.  Returns `(content, remainder-after-the-match)`. -/
def lazyClose : Str → Option (Str × Str)
  | [] => none
  | c :: rest =>
    if isQuote c then
      match wsThenParen rest with
      | some r => some ([], r)
      | none =>
        match lazyClose rest with
        | some (content, r) => some (c :: content, r)
        | none => none
    else if c = '\n' then none
    else
      match lazyClose rest with
      | some (content, r) => some (c :: content, r)
      | none => none

/-- The optional group `(?:f?["\x27](.*?)["\x27])?` followed by `\s*\)`,
applied after `\(\s*` (so `s` starts with a non-whitespace character or
is empty).  A greedy optional group tries to match first; if the group
cannot match, the pattern falls back to `\s*\)` at the same position.
Returns `(capturedGroup?, remainder)`. -/
def matchArgClose (s : Str) : Option (Option Str × Str) :=
  match s with
  | [] => none
  | c :: rest =>
    if c = 'f' then
      match rest with
      | q :: rest2 =>
        if isQuote q then
          match lazyClose rest2 with
          | some (content, r) => some (some content, r)
          | none =>
            match wsThenParen (c :: rest) with
            | some r => some (none, r)
            | none => none
        else
          match wsThenParen (c :: rest) with
          | some r => some (none, r)
          | none => none
      | [] => none
    else if isQuote c then
      match lazyClose rest with
      | some (content, r) => some (some content, r)
      | none =>
        match wsThenParen (c :: rest) with
        | some r => some (none, r)
        | none => none
    else
      match wsThenParen (c :: rest) with
      | some r => some (none, r)
      | none => none

/-- One attempt to match the source pattern
`input\s*\(\s*(?:f?["\x27](.*?)["\x27])?\s*\)` at the head of `s`.
Returns `(capturedGroup?, remainder-after-the-match)`. -/
def matchInputAt (s : Str) : Option (Option Str × Str) :=
  match s with
  | c1 :: c2 :: c3 :: c4 :: c5 :: rest =>
    if c1 = 'i' ∧ c2 = 'n' ∧ c3 = 'p' ∧ c4 = 'u' ∧ c5 = 't' then
      match dropWs rest with
      | c :: rest2 => if c = '(' then matchArgClose (dropWs rest2) else none
      | [] => none
    else none
  | _ => none

/-- The default prompt label of `CodeExecutor._detect_inputs`. -/
def defaultPrompt : Str := "Enter value".toList

/-- `m.group(1) if m.group(1) else "Enter value"`: Python's truthiness
sends both a missing group and an empty captured string to the
default label. -/
def promptOf (grp : Option Str) : Str :=
  match grp with
  | some p => if p = [] then defaultPrompt else p
  | none => defaultPrompt

/-- `re.finditer` over the code text: scan positions left to right,
emit each non-overlapping match (its full matched text `m.group(0)` and
its prompt label) and continue after the end of the match.  The fuel
argument bounds the recursion by the text length; every successful
match consumes at least seven characters, so `s.length` fuel is always
sufficient (see `scanInputs_fuel_stable`). -/
def scanInputs : Nat → Str → List (Str × Str)
  | 0, _ => []
  | _ + 1, [] => []
  | fuel + 1, c :: rest =>
    match matchInputAt (c :: rest) with
    | some (grp, r) =>
      ((c :: rest).take ((c :: rest).length - r.length), promptOf grp)
        :: scanInputs fuel r
    | none => scanInputs fuel rest

/-- `CodeExecutor._detect_inputs`: the ordered list of
`(siteText, promptLabel)` pairs for the detected interactive-input
calls of `code`. -/
def _detect_inputs (code : Str) : List (Str × Str) :=
  scanInputs code.length code

/-- Python `str.replace(old, new, 1)`: replace the first occurrence of
`old` in `s` by `new` (the identity when `old` does not occur). -/
def replaceFirst : Str → Str → Str → Str
  | [], old, new => if old.isPrefixOf [] then new ++ List.drop old.length [] else []
  | c :: rest, old, new =>
    if old.isPrefixOf (c :: rest) then new ++ List.drop old.length (c :: rest)
    else c :: replaceFirst rest old new

/-- Concatenation of a character-wise expansion (used to model Python's
replace-all on a single-character pattern). -/
def strBind : Str → (Char → Str) → Str
  | [], _ => []
  | c :: rest, f => f c ++ strBind rest f

/-- First escaping pass of `_replace_inputs`:
`value.replace("\\", "\\\\")`. -/
def escBackslash (c : Char) : Str := if c = bsl then [bsl, bsl] else [c]

/-- Second escaping pass of `_replace_inputs`:
`.replace('"', '\\"')`. -/
def escQuote (c : Char) : Str := if c = dq then [bsl, dq] else [c]

/-- The escaped value substituted by `_replace_inputs`. -/
def escapeValue (v : Str) : Str := strBind (strBind v escBackslash) escQuote

/-- The double-quoted literal `f'"{escaped}"'` substituted for a site. -/
def quoteLit (v : Str) : Str := dq :: (escapeValue v ++ [dq])

/-- `CodeExecutor._replace_inputs`: walk the detected requests of the
original `code` in order, zipped with the provided values, replacing at
each step the first occurrence of the request's site text in the
current (partially substituted) text by the quoted escaped value. -/
def _replace_inputs (code : Str) (values : List Str) : Str :=
  (List.zip (_detect_inputs code) values).foldl
    (fun result p => replaceFirst result p.1.1 (quoteLit p.2)) code

/-- `occursIn t s` decides whether `t` occurs as a contiguous substring
of `s`. -/
def occursIn : Str → Str → Bool
  | t, [] => t.isPrefixOf []
  | t, c :: rest => t.isPrefixOf (c :: rest) || occursIn t rest

/-! ## The execution sandbox (`CodeExecutor.execute`) -/

/-- The tuple `(success, stdout, stderr, execution_time)` returned by
`CodeExecutor.execute`.  Elapsed wall-clock time is abstracted to a
natural number supplied by the world. -/
structure ExecResult where
  success : Bool
  stdout : Str
  stderr : Str
  elapsed : Nat
deriving DecidableEq

/-- The mutable last-result fields of a `CodeExecutor` instance
(`last_code`, `last_output`, `last_error`, `last_returncode`), all
initialised to `None` in `__init__`. -/
structure LastState where
  last_code : Option Str
  last_output : Option Str
  last_error : Option Str
  last_returncode : Option Int
deriving DecidableEq

/-- The configuration of a `CodeExecutor` instance: the timeout in
seconds and the optional GUI input callback
(`callback(prompt_text) -> user_value or None to cancel`). -/
structure ExecConfig where
  timeout : Nat
  input_callback : Option (Str → Option Str)

/-- What the operating system does with the spawned subprocess: it runs
to completion with an exit code and captured streams, exceeds the
deadline (`subprocess.TimeoutExpired`), or the spawn/communication
fails with an exception (`except Exception as e`). -/
inductive ProcOutcome where
  | completed (returncode : Int) (stdout stderr : Str)
  | timedOut
  | spawnFailure (message : Str)
deriving DecidableEq

/-- The world `execute` runs against: whether writing the code file
into the workspace raises (this write sits outside the `try` block in
the source), the subprocess outcome, and the measured elapsed time. -/
structure SubprocessWorld where
  writeError : Option Str
  outcome : ProcOutcome
  elapsed : Nat

/-- The stderr text `f"Execution timed out ({self.timeout}s)"`. -/
def timeoutMessage (t : Nat) : Str :=
  "Execution timed out (".toList ++ Nat.toDigits 10 t ++ "s)".toList

/-- The value-collection loop of `execute`: invoke the callback once
per detected request, in order; a `None` return (user cancelled)
aborts the whole collection. -/
def collectValues (cb : Str → Option Str) : List (Str × Str) → Option (List Str)
  | [] => some []
  | (_, prompt) :: rest =>
    match cb prompt with
    | none => none
    | some v =>
      match collectValues cb rest with
      | none => none
      | some vs => some (v :: vs)

/-- The input-resolution phase of `execute`
(`if inputs and self.input_callback and input_data is None:`):
returns `none` when the user cancelled, otherwise the (possibly
substituted) code to run. -/
def resolvePhase (cb? : Option (Str → Option Str)) (inputs : List (Str × Str))
    (input_data : Option Str) (code : Str) : Option Str :=
  match inputs, cb?, input_data with
  | _ :: _, some cb, none =>
    match collectValues cb inputs with
    | none => none
    | some values => some (_replace_inputs code values)
  | _, _, _ => some code

/-- The result tuple of the cancellation path:
`return False, "", "Cancelled by user", 0.0`. -/
def cancelledResult : ExecResult :=
  ⟨false, [], "Cancelled by user".toList, 0⟩

/-- `CodeExecutor.execute(code, input_data)`.  The returned value is
`Except.error e` when an exception escapes `execute` (which the source
allows only for the code-file write, performed outside its `try`
block), and otherwise the updated last-result state together with the
returned tuple. -/
def execute (cfg : ExecConfig) (st0 : LastState) (w : SubprocessWorld)
    (code : Str) (input_data : Option Str) : Except Str (LastState × ExecResult) :=
  let st := { st0 with last_code := some code }
  match resolvePhase cfg.input_callback (_detect_inputs code) input_data code with
  | none => .ok (st, cancelledResult)
  | some _ =>
    match w.writeError with
    | some e => .error e
    | none =>
      match w.outcome with
      | .completed rc out err =>
        .ok ({ st with last_output := some out, last_error := some err,
                       last_returncode := some rc },
             ⟨rc == 0, out, err, w.elapsed⟩)
      | .timedOut =>
        .ok ({ st with last_error := some (timeoutMessage cfg.timeout),
                       last_returncode := some (-1) },
             ⟨false, [], timeoutMessage cfg.timeout, w.elapsed⟩)
      | .spawnFailure m =>
        .ok ({ st with last_error := some m, last_returncode := some (-1) },
             ⟨false, [], m, w.elapsed⟩)

/-! ## `CodeExecutor.save_code` -/

/-- A filesystem: an association of paths to file contents, plus the
set of existing directories. -/
structure FileSystem where
  files : List (Str × Str)
  dirs : List Str
deriving DecidableEq

/-- Association lookup of a file's contents. -/
def lookupFile (fs : FileSystem) (path : Str) : Option Str :=
  match fs.files.find? (fun p => p.1 = path) with
  | some p => some p.2
  | none => none

/-- Write (overwrite or add) a file entry. -/
def setFile (files : List (Str × Str)) (path contents : Str) : List (Str × Str) :=
  match files with
  | [] => [(path, contents)]
  | p :: rest => if p.1 = path then (path, contents) :: rest else p :: setFile rest path contents

/-- `os.path.dirname` (POSIX): the prefix up to and including the last
slash. -/
def splitHead (path : Str) : Str :=
  (path.reverse.dropWhile (fun c => c ≠ '/')).reverse

/-- Strip trailing slashes. -/
def rstripSlash (s : Str) : Str :=
  (s.reverse.dropWhile (fun c => c = '/')).reverse

/-- `os.path.dirname(path)` on POSIX: split at the last slash and strip
trailing slashes from the head unless it is all slashes. -/
def dirname (path : Str) : Str :=
  let head := splitHead path
  if head = [] then head
  else if head.all (fun c => c = '/') then head
  else rstripSlash head

/-- The chain of directories `os.makedirs` creates for `d`: `d` itself
and its ancestors (fuel-bounded recursion through `dirname`). -/
def ancestors : Nat → Str → List Str
  | 0, _ => []
  | fuel + 1, d =>
    if d = [] then [] else d :: ancestors fuel (dirname d)

/-- The world `save_code` runs against: an OS failure while creating
directories and an OS failure while opening or writing the file, if
any. -/
structure SaveWorld where
  mkdirError : Option Str
  openError : Option Str

/-- `str(e)` for the exception raised by `os.makedirs('')` — the
deterministic failure of `os.makedirs(os.path.dirname(filepath))`
when `filepath` has no directory component. -/
def emptyDirnameError : Str :=
  "[Errno 2] No such file or directory: ''".toList

/-- `CodeExecutor.save_code(code, filepath)`: create the missing parent
directories of `filepath`, write `code` to it, and return
`(True, f"Saved to {filepath}")`; any exception is caught and returned
as `(False, str(e))`.  `os.makedirs(os.path.dirname(filepath))` with an
empty dirname (a bare filename) raises `FileNotFoundError`, so that
case reports failure without writing. -/
def save_code (w : SaveWorld) (fs : FileSystem) (code filepath : Str) :
    FileSystem × (Bool × Str) :=
  let d := dirname filepath
  if d = [] then
    (fs, (false, emptyDirnameError))
  else
    match w.mkdirError with
    | some e => (fs, (false, e))
    | none =>
      let fs1 : FileSystem := { fs with dirs := ancestors d.length d ++ fs.dirs }
      match w.openError with
      | some e => (fs1, (false, e))
      | none =>
        ({ fs1 with files := setFile fs1.files filepath code },
         (true, "Saved to ".toList ++ filepath))

/-! ## The agent's auto-execution repair loop (`agent.py`, `main`) -/

/-- A conversation message `{"role": ..., "content": ...}`. -/
abbrev Msg := Str × Str

/-- The `"user"` role string. -/
def userRole : Str := "user".toList

/-- The `"assistant"` role string. -/
def assistantRole : Str := "assistant".toList

/-- The top-level exchange append of `main` (lines 259–264):
`conversation.extend([...]); if len(conversation) > 20:
conversation = conversation[-20:]`. -/
def appendExchange (conv : List Msg) (u a : Msg) : List Msg :=
  let c := conv ++ [u, a]
  if 20 < c.length then c.drop (c.length - 20) else c

/-- The repair prompt built in the fix loop, with the stderr excerpt
bounded to 500 characters (`e[:500]`). -/
def fixPrompt (e code : Str) : Str :=
  "The code produced an error:\n```\n".toList ++ e.take 500 ++
  "\n```\n\nOriginal code:\n```python\n".toList ++ code ++
  "\n```\n\nFix the error. Output the complete corrected Python code only.".toList

/-- The external environment of one auto-execution session: the result
of the `k`-th execution attempt (attempt 0 is the initial one), the
success flag and raw response of the generator call made at fix attempt
`k`, and the `extract_code` function. -/
structure AgentWorld where
  execResult : Nat → ExecResult
  chatOk : Nat → Bool
  chatResp : Nat → Str
  extractCode : Str → Option Str

/-- The observable trace of one auto-execution session: the final
result tuple, the `(codeText, result)` pair of every execution
performed, the retained conversation, every repair prompt constructed,
the length of the retained conversation at each fix-loop generator
call, the final value of `fix_attempt`, and whether the loop broke
because the generator failed or produced no extractable code. -/
structure SessionLog where
  result : ExecResult
  history : List (Str × ExecResult)
  conv : List Msg
  fixPrompts : List Str
  convLenAtChat : List Nat
  fixAttempt : Nat
  genFailed : Bool
deriving DecidableEq

/-- The fix loop of `main` (lines 278–307):
`while not s and fix_attempt < max_fix_attempts:` — `remaining` is
`max_fix_attempts - fix_attempt`.  Each iteration increments
`fix_attempt`, builds the repair prompt from the current stderr and
code, calls the generator (recorded in `fixPrompts`/`convLenAtChat`),
and on successful extraction appends the exchange to the conversation
(without re-truncation) and re-executes; a generator failure or an
unextractable response breaks the loop. -/
def fixLoop (w : AgentWorld) :
    Nat → Nat → Str → ExecResult → List Msg → List (Str × ExecResult) →
    List Str → List Nat → SessionLog
  | remaining, fixAttempt, code, res, conv, hist, prompts, lens =>
    if res.success then ⟨res, hist, conv, prompts, lens, fixAttempt, false⟩
    else
      match remaining with
      | 0 => ⟨res, hist, conv, prompts, lens, fixAttempt, false⟩
      | r + 1 =>
        let attempt := fixAttempt + 1
        let prompt := fixPrompt res.stderr code
        if w.chatOk attempt then
          match w.extractCode (w.chatResp attempt) with
          | some newCode =>
            let conv2 := conv ++ [(userRole, prompt), (assistantRole, w.chatResp attempt)]
            let res2 := w.execResult attempt
            fixLoop w r attempt newCode res2 conv2 (hist ++ [(newCode, res2)])
              (prompts ++ [prompt]) (lens ++ [conv.length])
          | none =>
            ⟨res, hist, conv, prompts ++ [prompt], lens ++ [conv.length], attempt, true⟩
        else
          ⟨res, hist, conv, prompts ++ [prompt], lens ++ [conv.length], attempt, true⟩

/-- One auto-execution session of `main` after a successful top-level
generation: append the top-level exchange (with its 20-message
truncation), run the initial execution, then run the fix loop with the
configured `max_fix_attempts`. -/
def runSession (w : AgentWorld) (conv0 : List Msg) (userInput response code0 : Str)
    (maxFixAttempts : Nat) : SessionLog :=
  let conv1 := appendExchange conv0 (userRole, userInput) (assistantRole, response)
  let r0 := w.execResult 0
  fixLoop w maxFixAttempts 0 code0 r0 conv1 [(code0, r0)] [] []

/-- Whether `main` prints `"Max fix attempts reached."` after the loop
(`if not s and fix_attempt >= max_fix_attempts:`). -/
def maxFixMessageShown (maxFixAttempts : Nat) (log : SessionLog) : Bool :=
  !log.result.success && decide (maxFixAttempts ≤ log.fixAttempt)

/-- The site text of a no-argument interactive-input call. -/
def inputSite : Str := "input()".toList

/-- Whether an `execute` run returned normally (no exception escaped). -/
def returnsNormally (e : Except Str (LastState × ExecResult)) : Bool :=
  match e with
  | .ok _ => true
  | .error _ => false

/-! ## Helper lemmas about the value-collection loop -/

theorem collectValues_eq_none (cb : Str → Option Str) :
    ∀ (inputs : List (Str × Str)), (∃ r ∈ inputs, cb r.2 = none) →
      collectValues cb inputs = none := by
  intro inputs h
  induction inputs with
  | nil => obtain ⟨r, hr, _⟩ := h; exact absurd hr (List.not_mem_nil r)
  | cons i rest ih =>
    obtain ⟨r, hr, hcbr⟩ := h
    rcases List.mem_cons.mp hr with rfl | hmem
    · simp [collectValues, hcbr]
    · cases hcb : cb i.2 with
      | none => simp [collectValues, hcb]
      | some v => simp [collectValues, hcb, ih ⟨r, hmem, hcbr⟩]

/-- The cancellation path of `execute`, shared shape: when inputs are
detected, a callback is configured, no `input_data` is supplied, and
the callback cancels some request, `execute` returns the cancellation
tuple with only `last_code` updated, touching nothing else and
independently of the subprocess world. -/
theorem execute_cancelled_general (cfg : ExecConfig) (st : LastState)
    (w : SubprocessWorld) (code : Str) (cb : Str → Option Str)
    (hcb : cfg.input_callback = some cb)
    (hne : _detect_inputs code ≠ [])
    (hcancel : ∃ r ∈ _detect_inputs code, cb r.2 = none) :
    execute cfg st w code none = .ok ({ st with last_code := some code }, cancelledResult) := by
  obtain ⟨i, is, hinputs⟩ : ∃ i is, _detect_inputs code = i :: is := by
    cases h : _detect_inputs code with
    | nil => exact absurd h hne
    | cons a l => exact ⟨a, l, rfl⟩
  have hcv : collectValues cb (i :: is) = none := by
    rw [← hinputs]; exact collectValues_eq_none cb _ hcancel
  have hres : resolvePhase cfg.input_callback (_detect_inputs code) none code = none := by
    rw [hcb, hinputs]
    simp only [resolvePhase, hcv]
  simp only [execute, hres]

end AIAgent

namespace AIAgent

/-! ## C1: outcome classification of `execute` -/

/-- Claim C1: for every call to `execute(codeText, inputData)` that
reaches the subprocess stage (input resolution did not cancel and the
code-file write succeeded), the returned result is classified from the
process outcome: exit code 0 gives success flag `true`; any nonzero
exit code of a completed process gives success flag `false` with the
captured stdout and stderr; exceeding the timeout gives success flag
`false`, empty stdout, the fixed timeout message naming the configured
seconds, and recorded exit-code sentinel `-1`; a spawn or communication
failure gives success flag `false` with the failure description in
stderr and recorded exit-code sentinel `-1`. -/
theorem execute_outcome_classification (cfg : ExecConfig) (st : LastState)
    (w : SubprocessWorld) (code : Str) (input_data : Option Str)
    (hres : resolvePhase cfg.input_callback (_detect_inputs code) input_data code ≠ none)
    (hw : w.writeError = none) :
    (∀ out err, w.outcome = .completed 0 out err →
      execute cfg st w code input_data =
        .ok ({ st with last_code := some code, last_output := some out,
                       last_error := some err, last_returncode := some 0 },
             ⟨true, out, err, w.elapsed⟩)) ∧
    (∀ rc out err, w.outcome = .completed rc out err → rc ≠ 0 →
      execute cfg st w code input_data =
        .ok ({ st with last_code := some code, last_output := some out,
                       last_error := some err, last_returncode := some rc },
             ⟨false, out, err, w.elapsed⟩)) ∧
    (w.outcome = .timedOut →
      execute cfg st w code input_data =
        .ok ({ st with last_code := some code,
                       last_error := some (timeoutMessage cfg.timeout),
                       last_returncode := some (-1) },
             ⟨false, [], timeoutMessage cfg.timeout, w.elapsed⟩)) ∧
    (∀ m, w.outcome = .spawnFailure m →
      execute cfg st w code input_data =
        .ok ({ st with last_code := some code, last_error := some m,
                       last_returncode := some (-1) },
             ⟨false, [], m, w.elapsed⟩)) := by
  obtain ⟨c2, hc2⟩ : ∃ c2, resolvePhase cfg.input_callback (_detect_inputs code) input_data code = some c2 := by
    cases h : resolvePhase cfg.input_callback (_detect_inputs code) input_data code with
    | none => exact absurd h hres
    | some c2 => exact ⟨c2, rfl⟩
  refine ⟨?_, ?_, ?_, ?_⟩
  · intro out err hout
    simp only [execute, hc2, hw, hout]
    rfl
  · intro rc out err hout hrc
    simp only [execute, hc2, hw, hout]
    simp [beq_eq_false_iff_ne, hrc]
  · intro hout
    simp only [execute, hc2, hw, hout]
  · intro m hout
    simp only [execute, hc2, hw, hout]

/-- Witness for C1 at a concrete successful run. -/
theorem execute_outcome_classification_witness :
    execute ⟨30, none⟩ ⟨none, none, none, none⟩
        ⟨none, .completed 0 "hi".toList [], 1⟩ "print(1)".toList none =
      .ok (⟨some "print(1)".toList, some "hi".toList, some [], some 0⟩,
           ⟨true, "hi".toList, [], 1⟩) :=
  (execute_outcome_classification ⟨30, none⟩ ⟨none, none, none, none⟩
    ⟨none, .completed 0 "hi".toList [], 1⟩ "print(1)".toList none
    (by decide) rfl).1 "hi".toList [] rfl

/-! ## C2: propagation policy of `execute` -/

/-- Counterexample to claim C2: a failure to write the code file into
the workspace — the write sits outside the `try` block of the source —
escapes `execute` as an exception instead of being converted to a
structured result tuple. -/
theorem execute_write_failure_raises :
    execute ⟨30, none⟩ ⟨none, none, none, none⟩
        ⟨some "disk full".toList, .timedOut, 1⟩ "print(1)".toList none =
      .error "disk full".toList := by
  rfl

/-- Claim C2 (amended): for every codeText and inputData, `execute`
returns a structured result tuple and never raises past its boundary
for every failure mode at or after the subprocess stage (completion,
timeout, spawn/communication failure) and on the cancellation path —
but a failure to write the code file into the workspace before the
subprocess is spawned propagates an exception. -/
theorem execute_no_raise_when_write_succeeds (cfg : ExecConfig) (st : LastState)
    (w : SubprocessWorld) (code : Str) (input_data : Option Str)
    (hw : w.writeError = none) :
    returnsNormally (execute cfg st w code input_data) = true := by
  cases hres : resolvePhase cfg.input_callback (_detect_inputs code) input_data code with
  | none => simp only [execute, hres]; rfl
  | some c2 =>
    cases hout : w.outcome with
    | completed rc out err => simp only [execute, hres, hw, hout]; rfl
    | timedOut => simp only [execute, hres, hw, hout]; rfl
    | spawnFailure m => simp only [execute, hres, hw, hout]; rfl

/-- Witness for the amended C2 at a concrete timed-out run. -/
theorem execute_no_raise_when_write_succeeds_witness :
    returnsNormally (execute ⟨30, none⟩ ⟨none, none, none, none⟩
      ⟨none, .timedOut, 31⟩ "while True: pass".toList none) = true :=
  execute_no_raise_when_write_succeeds ⟨30, none⟩ ⟨none, none, none, none⟩
    ⟨none, .timedOut, 31⟩ "while True: pass".toList none rfl

end AIAgent

namespace AIAgent

/-! ## C3: the cancellation path of `execute` -/

/-- Claim C3: for every codeText with at least one detected input
request, when a prompt callback is configured and no inputData is
supplied, if the callback returns the cancellation signal for some
request then `execute` returns immediately with success flag `false`,
empty stdout, stderr `"Cancelled by user"` and elapsed seconds 0 —
and the result is independent of the subprocess world (no code file is
written, even a failing write does not surface, and no subprocess
outcome is consulted). -/
theorem execute_cancellation_result (cfg : ExecConfig) (st : LastState)
    (w w' : SubprocessWorld) (code : Str) (cb : Str → Option Str)
    (hcb : cfg.input_callback = some cb)
    (hne : _detect_inputs code ≠ [])
    (hcancel : ∃ r ∈ _detect_inputs code, cb r.2 = none) :
    execute cfg st w code none =
      .ok ({ st with last_code := some code },
           ⟨false, [], "Cancelled by user".toList, 0⟩) ∧
    execute cfg st w code none = execute cfg st w' code none := by
  have h := execute_cancelled_general cfg st w code cb hcb hne hcancel
  have h' := execute_cancelled_general cfg st w' code cb hcb hne hcancel
  exact ⟨h, h.trans h'.symm⟩

/-- Witness for C3: a cancelling callback on `input()`, against a world
whose code-file write would fail and whose subprocess would succeed —
neither is observed. -/
theorem execute_cancellation_result_witness :
    execute ⟨30, some (fun _ => none)⟩ ⟨none, none, none, none⟩
        ⟨some "no space".toList, .timedOut, 9⟩ "input()".toList none =
      .ok (⟨some "input()".toList, none, none, none⟩,
           ⟨false, [], "Cancelled by user".toList, 0⟩) ∧
    execute ⟨30, some (fun _ => none)⟩ ⟨none, none, none, none⟩
        ⟨some "no space".toList, .timedOut, 9⟩ "input()".toList none =
      execute ⟨30, some (fun _ => none)⟩ ⟨none, none, none, none⟩
        ⟨none, .completed 0 [] [], 2⟩ "input()".toList none :=
  execute_cancellation_result ⟨30, some (fun _ => none)⟩ ⟨none, none, none, none⟩
    ⟨some "no space".toList, .timedOut, 9⟩ ⟨none, .completed 0 [] [], 2⟩
    "input()".toList (fun _ => none) rfl (by decide)
    ⟨("input()".toList, "Enter value".toList), by decide, rfl⟩

/-! ## C10: frame effect of the cancellation path on the last-result fields -/

/-- Claim C10: whenever `execute` returns via the cancellation path,
`last_code` is updated to the newly submitted codeText while
`last_output`, `last_error` and `last_returncode` are left unchanged,
still holding the values recorded by the previous execution. -/
theorem execute_cancellation_frame (cfg : ExecConfig) (st : LastState)
    (w : SubprocessWorld) (code : Str) (cb : Str → Option Str)
    (hcb : cfg.input_callback = some cb)
    (hne : _detect_inputs code ≠ [])
    (hcancel : ∃ r ∈ _detect_inputs code, cb r.2 = none) :
    execute cfg st w code none =
      .ok ({ st with last_code := some code }, cancelledResult) ∧
    ({ st with last_code := some code }).last_code = some code ∧
    ({ st with last_code := some code }).last_output = st.last_output ∧
    ({ st with last_code := some code }).last_error = st.last_error ∧
    ({ st with last_code := some code }).last_returncode = st.last_returncode :=
  ⟨execute_cancelled_general cfg st w code cb hcb hne hcancel, rfl, rfl, rfl, rfl⟩

/-- Witness for C10: a previous execution's recorded fields survive a
cancellation untouched while `last_code` is replaced. -/
theorem execute_cancellation_frame_witness :
    execute ⟨30, some (fun _ => none)⟩
        ⟨some "old code".toList, some "old out".toList, some "old err".toList, some 2⟩
        ⟨none, .completed 0 [] [], 1⟩ "input()".toList none =
      .ok (⟨some "input()".toList, some "old out".toList, some "old err".toList, some 2⟩,
           cancelledResult) :=
  (execute_cancellation_frame ⟨30, some (fun _ => none)⟩
    ⟨some "old code".toList, some "old out".toList, some "old err".toList, some 2⟩
    ⟨none, .completed 0 [] [], 1⟩ "input()".toList (fun _ => none) rfl (by decide)
    ⟨("input()".toList, "Enter value".toList), by decide, rfl⟩).1

end AIAgent

namespace AIAgent

/-! ## C6: calls whose argument is not a string literal -/

theorem alphanum_not_pyIsSpace (c : Char) (h : c.isAlphanum = true) :
    pyIsSpace c = false := by
  cases hs : pyIsSpace c with
  | false => rfl
  | true =>
    exfalso
    simp only [pyIsSpace, Bool.or_eq_true, beq_iff_eq] at hs
    rcases hs with ((((rfl | rfl) | rfl) | rfl) | rfl) | rfl <;> exact absurd h (by decide)

theorem alphanum_not_isQuote (c : Char) (h : c.isAlphanum = true) :
    isQuote c = false := by
  cases hs : isQuote c with
  | false => rfl
  | true =>
    exfalso
    simp only [isQuote, Bool.or_eq_true, beq_iff_eq] at hs
    rcases hs with rfl | rfl <;> exact absurd h (by decide)

theorem alphanum_ne_rparen (c : Char) (h : c.isAlphanum = true) : c ≠ ')' := by
  intro he; rw [he] at h; exact absurd h (by decide)

theorem alphanum_ne_lparen (c : Char) (h : c.isAlphanum = true) : c ≠ '(' := by
  intro he; rw [he] at h; exact absurd h (by decide)

/-- An alphanumeric argument followed by the closing parenthesis starts
with a non-whitespace character, so the greedy `\s*` consumes
nothing. -/
theorem dropWs_alnum_paren (l : Str) (h : ∀ ch ∈ l, ch.isAlphanum = true) :
    dropWs (l ++ [')']) = l ++ [')'] := by
  cases l with
  | nil => rfl
  | cons x xs =>
    simp only [List.cons_append, dropWs,
      alphanum_not_pyIsSpace x (h x (List.mem_cons_self x xs)), Bool.false_eq_true,
      if_false]
    rfl

/-- The pattern can only match at a position whose first character is
`i`. -/
theorem matchInputAt_ne_i (c1 : Char) (h : c1 ≠ 'i') :
    ∀ rest : Str, matchInputAt (c1 :: rest) = none := by
  intro rest
  match rest with
  | [] => rfl
  | [a] => rfl
  | [a, b] => rfl
  | [a, b, c] => rfl
  | a :: b :: c :: d :: rest2 =>
    simp only [matchInputAt]
    rw [if_neg (fun hand => h hand.1)]

/-- The group `f?["\x27](.*?)["\x27]` and the fallback `\s*\)` both
fail on a nonempty alphanumeric argument: no quote can open the group
and the first argument character is not `)`. -/
theorem matchArgClose_alnum (arg : Str) (hne : arg ≠ [])
    (h : ∀ ch ∈ arg, ch.isAlphanum = true) :
    matchArgClose (arg ++ [')']) = none := by
  cases arg with
  | nil => exact absurd rfl hne
  | cons a arg2 =>
    have ha := h a (List.mem_cons_self a arg2)
    by_cases hf : a = 'f'
    · subst hf
      cases arg2 with
      | nil => decide
      | cons x xs =>
        have hx := h x (List.mem_cons_of_mem 'f' (List.mem_cons_self x xs))
        simp only [List.cons_append, matchArgClose, if_pos rfl,
          alphanum_not_isQuote x hx, Bool.false_eq_true, if_false, wsThenParen, dropWs,
          show pyIsSpace 'f' = false from rfl, show ('f' = ')') = False by simp]
        simp
    · simp only [List.cons_append, matchArgClose, if_neg hf,
        alphanum_not_isQuote a ha, Bool.false_eq_true, if_false, wsThenParen, dropWs,
        alphanum_not_pyIsSpace a ha, if_neg (alphanum_ne_rparen a ha)]

/-- At a position strictly inside the argument, a match would need the
five characters `input` followed (after no whitespace — the argument is
alphanumeric) by `(`, but only alphanumeric characters and the final
`)` remain. -/
theorem matchInputAt_alnum_paren :
    ∀ (arg2 : Str), (∀ ch ∈ arg2, ch.isAlphanum = true) →
      matchInputAt (arg2 ++ [')']) = none := by
  intro arg2 h
  match arg2, h with
  | [], _ => rfl
  | [a], _ => rfl
  | [a, b], _ => rfl
  | [a, b, c], _ => rfl
  | [a, b, c, d], _ =>
    simp only [List.cons_append, List.nil_append, matchInputAt]
    rw [if_neg (fun hand => absurd hand.2.2.2.2 (by decide))]
  | a :: b :: c :: d :: e :: rest2, h =>
    have hrest2 : ∀ ch ∈ rest2, ch.isAlphanum = true := fun ch hch =>
      h ch (List.mem_cons_of_mem a (List.mem_cons_of_mem b (List.mem_cons_of_mem c
        (List.mem_cons_of_mem d (List.mem_cons_of_mem e hch)))))
    by_cases hcond : a = 'i' ∧ b = 'n' ∧ c = 'p' ∧ d = 'u' ∧ e = 't'
    · simp only [List.cons_append, matchInputAt, if_pos hcond,
        dropWs_alnum_paren rest2 hrest2]
      cases rest2 with
      | nil => rfl
      | cons x xs =>
        have hx := hrest2 x (List.mem_cons_self x xs)
        simp only [List.cons_append, if_neg (alphanum_ne_lparen x hx)]
    · simp only [List.cons_append, matchInputAt, if_neg hcond]

/-- Every suffix of a no-argument-match text fails, so the scan emits
nothing. -/
theorem scanInputs_eq_nil_of_all_fail :
    ∀ (fuel : Nat) (s : Str), (∀ t, t <:+ s → matchInputAt t = none) →
      scanInputs fuel s = [] := by
  intro fuel
  induction fuel with
  | zero => intro s _; rfl
  | succ f ih =>
    intro s h
    cases s with
    | nil => rfl
    | cons c rest =>
      simp only [scanInputs]
      rw [h (c :: rest) (List.suffix_refl _)]
      exact ih rest (fun t ht => h t (ht.trans (List.suffix_cons c rest)))

/-- No suffix lying inside the argument-plus-closing-parenthesis region
matches the pattern. -/
theorem matchInputAt_suffix_alnum :
    ∀ (arg2 : Str), (∀ ch ∈ arg2, ch.isAlphanum = true) →
      ∀ t, t <:+ arg2 ++ [')'] → matchInputAt t = none := by
  intro arg2
  induction arg2 with
  | nil =>
    intro _ t ht
    rcases List.suffix_cons_iff.mp ht with rfl | ht2
    · rfl
    · rw [List.suffix_nil.mp ht2]; rfl
  | cons a arg2 ih =>
    intro h t ht
    rw [List.cons_append] at ht
    rcases List.suffix_cons_iff.mp ht with rfl | ht2
    · exact matchInputAt_alnum_paren (a :: arg2) h
    · exact ih (fun ch hch => h ch (List.mem_cons_of_mem a hch)) t ht2

/-- Counterexample to claim C6: for the occurrence of an
interactive-input call with a variable argument, `input(x)`, the
detector produces no `InputRequest` at all — in particular none with
the default label. -/
theorem detect_nonliteral_ce :
    _detect_inputs "input(x)".toList = [] ∧
    ¬ ∃ r ∈ _detect_inputs "input(x)".toList, r.2 = defaultPrompt := by
  constructor
  · decide
  · decide

/-- Claim C6 (amended): a call whose argument is not a simple string
literal does not in general produce an `InputRequest` carrying the
default label.  A call whose argument is a nonempty alphanumeric
identifier (a variable such as `input(x)`, `input(name)`, `input(f)`,
`input(myinput2)`) is not matched at all — the detector produces no
`InputRequest` for that occurrence; whereas a call whose argument
expression embeds string literals, such as `input("a" + "b")`, is
matched and produces an `InputRequest` whose prompt label is the raw
text between the argument's first and last quote (here `a" + "b`),
not the default.  The default label applies only to calls with no
argument or an empty literal. -/
theorem detect_nonliteral_argument_behavior :
    (∀ arg : Str, arg ≠ [] → (∀ ch ∈ arg, ch.isAlphanum = true) →
      _detect_inputs ("input(".toList ++ arg ++ ")".toList) = []) ∧
    _detect_inputs "input(\"a\" + \"b\")".toList =
      [("input(\"a\" + \"b\")".toList, "a\" + \"b".toList)] := by
  constructor
  · intro arg hne harg
    show scanInputs _ ('i' :: 'n' :: 'p' :: 'u' :: 't' :: '(' :: (arg ++ [')'])) = []
    apply scanInputs_eq_nil_of_all_fail
    intro t ht
    rcases List.suffix_cons_iff.mp ht with rfl | ht
    · show matchArgClose (dropWs (arg ++ [')'])) = none
      rw [dropWs_alnum_paren arg harg]
      exact matchArgClose_alnum arg hne harg
    rcases List.suffix_cons_iff.mp ht with rfl | ht
    · exact matchInputAt_ne_i 'n' (by decide) _
    rcases List.suffix_cons_iff.mp ht with rfl | ht
    · exact matchInputAt_ne_i 'p' (by decide) _
    rcases List.suffix_cons_iff.mp ht with rfl | ht
    · exact matchInputAt_ne_i 'u' (by decide) _
    rcases List.suffix_cons_iff.mp ht with rfl | ht
    · exact matchInputAt_ne_i 't' (by decide) _
    rcases List.suffix_cons_iff.mp ht with rfl | ht
    · exact matchInputAt_ne_i '(' (by decide) _
    exact matchInputAt_suffix_alnum arg harg t ht
  · decide

/-- Witness for the amended C6 at the identifier `name` (and the
concrete embedded-literal case is closed, needing no witness). -/
theorem detect_nonliteral_argument_behavior_witness :
    ("name".toList ≠ [] ∧ ∀ ch ∈ "name".toList, ch.isAlphanum = true) ∧
    _detect_inputs ("input(".toList ++ "name".toList ++ ")".toList) = [] :=
  ⟨by decide, detect_nonliteral_argument_behavior.1 "name".toList (by decide) (by decide)⟩

end AIAgent

namespace AIAgent

/-! ## C9: `save_code` round trip -/

theorem lookup_setFile (files : List (Str × Str)) (path contents : Str) :
    (setFile files path contents).find? (fun p => p.1 = path) = some (path, contents) := by
  induction files with
  | nil => simp [setFile, List.find?]
  | cons p rest ih =>
    by_cases hp : p.1 = path
    · simp [setFile, hp, List.find?]
    · simp only [setFile, if_neg hp]
      rw [List.find?_cons_of_neg _ (by simpa using hp)]
      exact ih

/-- Counterexample to claim C9: for a destination path with no
directory component, `save_code` calls `os.makedirs('')`, which raises
`FileNotFoundError`; the caught exception makes it return a false
success flag and nothing is written, so a direct read of the
destination does not return the codeText. -/
theorem save_code_bare_filename_ce :
    (save_code ⟨none, none⟩ ⟨[], []⟩ "print(1)".toList "out.py".toList).2 =
      (false, emptyDirnameError) ∧
    lookupFile (save_code ⟨none, none⟩ ⟨[], []⟩ "print(1)".toList "out.py".toList).1
      "out.py".toList = none := by
  constructor
  · decide
  · decide

/-- Claim C9 (amended): for every destination path with a nonempty
directory component, absent OS failures, `save_code` followed by a
direct read of the destination returns exactly the codeText written
and the destination's parent directory chain has been created; for a
bare filename `save_code` reports failure (its `os.makedirs('')` call
fails) without writing; in all cases `save_code` never raises past its
boundary — every failure is returned as a false success flag and a
message. -/
theorem save_code_roundtrip (w : SaveWorld) (fs : FileSystem) (code filepath : Str)
    (hd : dirname filepath ≠ []) (hm : w.mkdirError = none) (ho : w.openError = none) :
    (save_code w fs code filepath).2 = (true, "Saved to ".toList ++ filepath) ∧
    lookupFile (save_code w fs code filepath).1 filepath = some code ∧
    dirname filepath ∈ (save_code w fs code filepath).1.dirs := by
  have hres : save_code w fs code filepath =
      ({ fs with
          dirs := ancestors (dirname filepath).length (dirname filepath) ++ fs.dirs,
          files := setFile fs.files filepath code },
       (true, "Saved to ".toList ++ filepath)) := by
    simp only [save_code, if_neg hd, hm, ho]
  refine ⟨by rw [hres], ?_, ?_⟩
  · rw [hres]
    simp only [lookupFile, lookup_setFile]
  · rw [hres]
    simp only [List.mem_append]
    left
    obtain ⟨a, l, ha⟩ : ∃ a l, dirname filepath = a :: l := by
      cases hdd : dirname filepath with
      | nil => exact absurd hdd hd
      | cons a l => exact ⟨a, l, rfl⟩
    rw [ha]
    simp [ancestors]

/-- Witness for the amended C9 at a nested destination path. -/
theorem save_code_roundtrip_witness :
    (save_code ⟨none, none⟩ ⟨[], []⟩ "x = 1".toList "proj/out.py".toList).2 =
      (true, "Saved to ".toList ++ "proj/out.py".toList) ∧
    lookupFile (save_code ⟨none, none⟩ ⟨[], []⟩ "x = 1".toList "proj/out.py".toList).1
      "proj/out.py".toList = some "x = 1".toList ∧
    dirname "proj/out.py".toList ∈
      (save_code ⟨none, none⟩ ⟨[], []⟩ "x = 1".toList "proj/out.py".toList).1.dirs :=
  save_code_roundtrip ⟨none, none⟩ ⟨[], []⟩ "x = 1".toList "proj/out.py".toList
    (by decide) rfl rfl

end AIAgent

namespace AIAgent

/-! ## Helper lemmas about the fix loop -/

theorem fixLoop_allFail (w : AgentWorld)
    (hFail : ∀ k, (w.execResult k).success = false)
    (hChat : ∀ k, w.chatOk k = true)
    (hExt : ∀ k, (w.extractCode (w.chatResp k)).isSome = true) :
    ∀ (remaining fixAttempt : Nat) (code : Str) (conv : List Msg)
      (hist : List (Str × ExecResult)) (prompts : List Str) (lens : List Nat),
      (fixLoop w remaining fixAttempt code (w.execResult fixAttempt) conv hist prompts lens).result
          = w.execResult (fixAttempt + remaining) ∧
      (fixLoop w remaining fixAttempt code (w.execResult fixAttempt) conv hist prompts lens).history.length
          = hist.length + remaining ∧
      (fixLoop w remaining fixAttempt code (w.execResult fixAttempt) conv hist prompts lens).fixAttempt
          = fixAttempt + remaining ∧
      (fixLoop w remaining fixAttempt code (w.execResult fixAttempt) conv hist prompts lens).genFailed
          = false ∧
      (fixLoop w remaining fixAttempt code (w.execResult fixAttempt) conv hist prompts lens).conv.length
          = conv.length + 2 * remaining := by
  intro remaining
  induction remaining with
  | zero =>
    intro fixAttempt code conv hist prompts lens
    simp [fixLoop, hFail fixAttempt]
  | succ r ih =>
    intro fixAttempt code conv hist prompts lens
    obtain ⟨newCode, hnc⟩ := Option.isSome_iff_exists.mp (hExt (fixAttempt + 1))
    simp only [fixLoop, hFail fixAttempt, Bool.false_eq_true, if_false,
      hChat (fixAttempt + 1), if_true, hnc]
    have h := ih (fixAttempt + 1) newCode
      (conv ++ [(userRole, fixPrompt (w.execResult fixAttempt).stderr code),
                (assistantRole, w.chatResp (fixAttempt + 1))])
      (hist ++ [(newCode, w.execResult (fixAttempt + 1))])
      (prompts ++ [fixPrompt (w.execResult fixAttempt).stderr code])
      (lens ++ [conv.length])
    obtain ⟨h1, h2, h3, h4, h5⟩ := h
    refine ⟨?_, ?_, ?_, ?_, ?_⟩
    · rw [h1]; congr 1; omega
    · rw [h2]; simp only [List.length_append, List.length_cons, List.length_nil]; omega
    · rw [h3]; omega
    · exact h4
    · rw [h5]; simp only [List.length_append, List.length_cons, List.length_nil]; omega

theorem fixLoop_extends (w : AgentWorld) :
    ∀ (remaining fixAttempt : Nat) (code : Str) (res : ExecResult) (conv : List Msg)
      (hist : List (Str × ExecResult)) (prompts : List Str) (lens : List Nat),
      ∃ h2 p2,
        (fixLoop w remaining fixAttempt code res conv hist prompts lens).history = hist ++ h2 ∧
        (fixLoop w remaining fixAttempt code res conv hist prompts lens).fixPrompts = prompts ++ p2 := by
  intro remaining
  induction remaining with
  | zero =>
    intro fixAttempt code res conv hist prompts lens
    by_cases hs : res.success = true
    · exact ⟨[], [], by simp [fixLoop, hs], by simp [fixLoop, hs]⟩
    · have hs' : res.success = false := by
        cases h : res.success with
        | false => rfl
        | true => exact absurd h hs
      exact ⟨[], [], by simp [fixLoop, hs'], by simp [fixLoop, hs']⟩
  | succ r ih =>
    intro fixAttempt code res conv hist prompts lens
    by_cases hs : res.success = true
    · exact ⟨[], [], by simp [fixLoop, hs], by simp [fixLoop, hs]⟩
    · have hs' : res.success = false := by
        cases h : res.success with
        | false => rfl
        | true => exact absurd h hs
      cases hc : w.chatOk (fixAttempt + 1) with
      | false =>
        exact ⟨[], [fixPrompt res.stderr code],
          by simp [fixLoop, hs', hc], by simp [fixLoop, hs', hc]⟩
      | true =>
        cases he : w.extractCode (w.chatResp (fixAttempt + 1)) with
        | none =>
          exact ⟨[], [fixPrompt res.stderr code],
            by simp [fixLoop, hs', hc, he], by simp [fixLoop, hs', hc, he]⟩
        | some newCode =>
          obtain ⟨h2, p2, hh, hp⟩ := ih (fixAttempt + 1) newCode (w.execResult (fixAttempt + 1))
            (conv ++ [(userRole, fixPrompt res.stderr code),
                      (assistantRole, w.chatResp (fixAttempt + 1))])
            (hist ++ [(newCode, w.execResult (fixAttempt + 1))])
            (prompts ++ [fixPrompt res.stderr code])
            (lens ++ [conv.length])
          refine ⟨(newCode, w.execResult (fixAttempt + 1)) :: h2,
                  fixPrompt res.stderr code :: p2, ?_, ?_⟩
          · simp only [fixLoop, hs', Bool.false_eq_true, if_false, hc, if_true, he]
            rw [hh]
            simp
          · simp only [fixLoop, hs', Bool.false_eq_true, if_false, hc, if_true, he]
            rw [hp]
            simp

theorem fixLoop_head_bound (w : AgentWorld) (m fixA : Nat) (code : Str)
    (res : ExecResult) (conv : List Msg) (x y : Str × ExecResult)
    (hist' : List (Str × ExecResult)) (pr : Str) (prompts' : List Str) (lens : List Nat) :
    (fixLoop w m fixA code res conv (x :: y :: hist') (pr :: prompts') lens).fixPrompts.head?
        = some pr ∧
    2 ≤ (fixLoop w m fixA code res conv (x :: y :: hist') (pr :: prompts') lens).history.length := by
  obtain ⟨h2, p2, hh, hp⟩ := fixLoop_extends w m fixA code res conv (x :: y :: hist') (pr :: prompts') lens
  constructor
  · rw [hp]; rfl
  · rw [hh]; simp only [List.length_append, List.length_cons]; omega

end AIAgent

namespace AIAgent

/-! ## C4: the repair loop on a Cancelled result -/

/-- Counterexample to claim C4: a session whose first execution ends as
Cancelled (the tuple `(False, "", "Cancelled by user", 0.0)`) does not
terminate immediately — the loop constructs a repair prompt from it and
performs a second execution. -/
theorem repair_loop_cancelled_ce :
    (runSession
      ⟨fun k => if k = 0 then cancelledResult else ⟨true, "ok".toList, [], 1⟩,
       fun _ => true, fun _ => "x = 1".toList, fun s => some s⟩
      [] "u".toList "r".toList "code0".toList 3).fixPrompts.length = 1 ∧
    (runSession
      ⟨fun k => if k = 0 then cancelledResult else ⟨true, "ok".toList, [], 1⟩,
       fun _ => true, fun _ => "x = 1".toList, fun s => some s⟩
      [] "u".toList "r".toList "code0".toList 3).history.length = 2 := by
  constructor
  · decide
  · decide

/-- Claim C4 (amended): the repair loop does not distinguish a
Cancelled execution from any other failure: whenever the first
execution returns the cancellation tuple and the attempt counter
allows (`maxAttempts ≥ 1`) and the generator produces extractable
code, a repair prompt is constructed from the cancelled result's
stderr `"Cancelled by user"` and at least one further execution
attempt is made. -/
theorem repair_loop_cancelled_retries (w : AgentWorld) (conv0 : List Msg)
    (u resp code0 : Str) (maxA : Nat)
    (h0 : w.execResult 0 = cancelledResult) (hmax : 1 ≤ maxA)
    (hchat : w.chatOk 1 = true)
    (hext : (w.extractCode (w.chatResp 1)).isSome = true) :
    (runSession w conv0 u resp code0 maxA).fixPrompts.head? =
      some (fixPrompt "Cancelled by user".toList code0) ∧
    2 ≤ (runSession w conv0 u resp code0 maxA).history.length := by
  obtain ⟨m, rfl⟩ : ∃ m, maxA = m + 1 := ⟨maxA - 1, by omega⟩
  obtain ⟨newCode, hnc⟩ := Option.isSome_iff_exists.mp hext
  simp only [runSession, fixLoop, h0, cancelledResult, Bool.false_eq_true, if_false,
    hchat, if_true, hnc]
  exact fixLoop_head_bound w m 1 newCode _ _ _ _ _ _ _ _

/-- Witness for the amended C4. -/
theorem repair_loop_cancelled_retries_witness :
    (runSession
      ⟨fun _ => cancelledResult, fun _ => true, fun _ => "y = 2".toList, fun s => some s⟩
      [] "u".toList "r".toList "code0".toList 1).fixPrompts.head? =
      some (fixPrompt "Cancelled by user".toList "code0".toList) ∧
    2 ≤ (runSession
      ⟨fun _ => cancelledResult, fun _ => true, fun _ => "y = 2".toList, fun s => some s⟩
      [] "u".toList "r".toList "code0".toList 1).history.length :=
  repair_loop_cancelled_retries
    ⟨fun _ => cancelledResult, fun _ => true, fun _ => "y = 2".toList, fun s => some s⟩
    [] "u".toList "r".toList "code0".toList 1 rfl (by decide) rfl rfl

/-! ## C5: termination of the repair loop under persistent failure -/

/-- Claim C5: when every execution fails (success flag `false`) and the
generator always returns a response with extractable code, the loop
terminates after exactly `maxAttempts` repair cycles with the
max-attempts-exceeded outcome, having performed `maxAttempts + 1`
executions in total (the history of `(codeText, result)` pairs has
length `maxAttempts + 1`), never entering the generation-failed break,
and the last result's stderr is still available to the caller. -/
theorem repair_loop_max_attempts (w : AgentWorld) (conv0 : List Msg)
    (u resp code0 : Str) (maxA : Nat)
    (hFail : ∀ k, (w.execResult k).success = false)
    (hChat : ∀ k, w.chatOk k = true)
    (hExt : ∀ k, (w.extractCode (w.chatResp k)).isSome = true) :
    (runSession w conv0 u resp code0 maxA).history.length = maxA + 1 ∧
    (runSession w conv0 u resp code0 maxA).fixAttempt = maxA ∧
    (runSession w conv0 u resp code0 maxA).genFailed = false ∧
    maxFixMessageShown maxA (runSession w conv0 u resp code0 maxA) = true ∧
    (runSession w conv0 u resp code0 maxA).result.stderr = (w.execResult maxA).stderr := by
  have e : runSession w conv0 u resp code0 maxA =
      fixLoop w maxA 0 code0 (w.execResult 0)
        (appendExchange conv0 (userRole, u) (assistantRole, resp))
        [(code0, w.execResult 0)] [] [] := rfl
  obtain ⟨h1, h2, h3, h4, h5⟩ := fixLoop_allFail w hFail hChat hExt maxA 0 code0
    (appendExchange conv0 (userRole, u) (assistantRole, resp))
    [(code0, w.execResult 0)] [] []
  refine ⟨?_, ?_, ?_, ?_, ?_⟩
  · rw [e, h2]; simp only [List.length_cons, List.length_nil]; omega
  · rw [e, h3]; omega
  · rw [e]; exact h4
  · rw [e]
    have hs : (fixLoop w maxA 0 code0 (w.execResult 0)
        (appendExchange conv0 (userRole, u) (assistantRole, resp))
        [(code0, w.execResult 0)] [] []).result.success = false := by
      rw [h1]; exact hFail (0 + maxA)
    simp [maxFixMessageShown, hs, h3]
  · rw [e, h1]; simp

/-- Witness for C5 with three repair attempts against a persistently
failing execution. -/
theorem repair_loop_max_attempts_witness :
    (runSession
      ⟨fun _ => ⟨false, [], "boom".toList, 1⟩, fun _ => true, fun _ => "fix".toList,
       fun s => some s⟩ [] "u".toList "r".toList "c0".toList 3).history.length = 4 ∧
    (runSession
      ⟨fun _ => ⟨false, [], "boom".toList, 1⟩, fun _ => true, fun _ => "fix".toList,
       fun s => some s⟩ [] "u".toList "r".toList "c0".toList 3).fixAttempt = 3 ∧
    (runSession
      ⟨fun _ => ⟨false, [], "boom".toList, 1⟩, fun _ => true, fun _ => "fix".toList,
       fun s => some s⟩ [] "u".toList "r".toList "c0".toList 3).genFailed = false ∧
    maxFixMessageShown 3 (runSession
      ⟨fun _ => ⟨false, [], "boom".toList, 1⟩, fun _ => true, fun _ => "fix".toList,
       fun s => some s⟩ [] "u".toList "r".toList "c0".toList 3) = true ∧
    (runSession
      ⟨fun _ => ⟨false, [], "boom".toList, 1⟩, fun _ => true, fun _ => "fix".toList,
       fun s => some s⟩ [] "u".toList "r".toList "c0".toList 3).result.stderr = "boom".toList :=
  repair_loop_max_attempts
    ⟨fun _ => ⟨false, [], "boom".toList, 1⟩, fun _ => true, fun _ => "fix".toList,
     fun s => some s⟩ [] "u".toList "r".toList "c0".toList 3
    (fun _ => rfl) (fun _ => rfl) (fun _ => rfl)

/-! ## C8: the conversation-context bound -/

/-- Counterexample to claim C8: starting from 18 retained messages,
the top-level append reaches the bound of 20, but the repair-loop
appends do not re-establish it — the second fix-cycle generator call
already sees 22 retained messages and the session ends with 24. -/
theorem conversation_bound_ce :
    (runSession
      ⟨fun _ => ⟨false, [], "e".toList, 1⟩, fun _ => true, fun _ => "y".toList,
       fun s => some s⟩
      (List.replicate 18 (userRole, "m".toList)) "u".toList "r".toList "c".toList
      2).convLenAtChat = [20, 22] ∧
    20 < (runSession
      ⟨fun _ => ⟨false, [], "e".toList, 1⟩, fun _ => true, fun _ => "y".toList,
       fun s => some s⟩
      (List.replicate 18 (userRole, "m".toList)) "u".toList "r".toList "c".toList
      2).conv.length := by
  constructor
  · decide
  · decide

/-- Claim C8 (amended): the 20-message bound is re-established only by
the top-level exchange append, which always leaves at most 20 retained
messages; the appends performed inside the auto-fix repair loop add
two messages each without re-truncation, so after `maxAttempts`
repair exchanges the retained context holds the top-level length plus
`2 * maxAttempts` messages and can exceed the bound. -/
theorem conversation_bound_amended :
    (∀ (conv : List Msg) (u a : Msg), (appendExchange conv u a).length ≤ 20) ∧
    (∀ (w : AgentWorld) (conv0 : List Msg) (u resp code0 : Str) (maxA : Nat),
      (∀ k, (w.execResult k).success = false) →
      (∀ k, w.chatOk k = true) →
      (∀ k, (w.extractCode (w.chatResp k)).isSome = true) →
      (runSession w conv0 u resp code0 maxA).conv.length =
        (appendExchange conv0 (userRole, u) (assistantRole, resp)).length + 2 * maxA) := by
  constructor
  · intro conv u a
    simp only [appendExchange]
    by_cases h : 20 < (conv ++ [u, a]).length
    · rw [if_pos h]
      simp only [List.length_drop]
      omega
    · rw [if_neg h]
      omega
  · intro w conv0 u resp code0 maxA hFail hChat hExt
    exact (fixLoop_allFail w hFail hChat hExt maxA 0 code0
      (appendExchange conv0 (userRole, u) (assistantRole, resp))
      [(code0, w.execResult 0)] [] []).2.2.2.2

/-- Witness for the amended C8. -/
theorem conversation_bound_amended_witness :
    (appendExchange [] (userRole, "u".toList) (assistantRole, "a".toList)).length ≤ 20 ∧
    (runSession
      ⟨fun _ => ⟨false, [], "e".toList, 1⟩, fun _ => true, fun _ => "y".toList,
       fun s => some s⟩
      (List.replicate 18 (userRole, "m".toList)) "u".toList "r".toList "c".toList
      2).conv.length =
      (appendExchange (List.replicate 18 (userRole, "m".toList))
        (userRole, "u".toList) (assistantRole, "r".toList)).length + 2 * 2 :=
  ⟨conversation_bound_amended.1 [] (userRole, "u".toList) (assistantRole, "a".toList),
   conversation_bound_amended.2
     ⟨fun _ => ⟨false, [], "e".toList, 1⟩, fun _ => true, fun _ => "y".toList,
      fun s => some s⟩
     (List.replicate 18 (userRole, "m".toList)) "u".toList "r".toList "c".toList 2
     (fun _ => rfl) (fun _ => rfl) (fun _ => rfl)⟩

end AIAgent

namespace AIAgent

/-! ## Helper lemmas about occurrences and first-occurrence replacement -/

theorem occursIn_nil_left (s : Str) : occursIn [] s = true := by
  cases s <;> rfl

theorem occursIn_of_prefixOf (t s : Str) (h : t <+: s) : occursIn t s = true := by
  cases s with
  | nil =>
    have : t = [] := List.prefix_nil.mp h
    subst this; rfl
  | cons c rest =>
    simp only [occursIn, Bool.or_eq_true]
    exact Or.inl (List.isPrefixOf_iff_prefix.mpr h)

theorem occursIn_append_left (t x z : Str) (h : occursIn t x = true) :
    occursIn t (x ++ z) = true := by
  induction x with
  | nil =>
    simp only [occursIn] at h
    have : t = [] := List.prefix_nil.mp (List.isPrefixOf_iff_prefix.mp h)
    subst this
    exact occursIn_nil_left _
  | cons c x' ih =>
    simp only [occursIn, Bool.or_eq_true] at h
    rcases h with hp | h'
    · have hp' : t <+: c :: x' := List.isPrefixOf_iff_prefix.mp hp
      have : t <+: (c :: x') ++ z := hp'.trans (List.prefix_append _ _)
      rw [List.cons_append] at this
      exact occursIn_of_prefixOf _ _ this
    · simp only [List.cons_append, occursIn, Bool.or_eq_true]
      exact Or.inr (ih h')

theorem occursIn_decomp (t s : Str) (h : occursIn t s = true) :
    ∃ p suf, s = p ++ t ++ suf := by
  induction s with
  | nil =>
    simp only [occursIn] at h
    have : t = [] := List.prefix_nil.mp (List.isPrefixOf_iff_prefix.mp h)
    exact ⟨[], [], by simp [this]⟩
  | cons c rest ih =>
    simp only [occursIn, Bool.or_eq_true] at h
    rcases h with hp | h'
    · obtain ⟨suf, hsuf⟩ := List.isPrefixOf_iff_prefix.mp hp
      exact ⟨[], suf, by simp [← hsuf]⟩
    · obtain ⟨p, suf, hps⟩ := ih h'
      exact ⟨c :: p, suf, by simp [hps]⟩

theorem mem_of_occursIn (t v : Str) (h : occursIn t v = true) :
    ∀ ch ∈ t, ch ∈ v := by
  obtain ⟨p, suf, rfl⟩ := occursIn_decomp t v h
  intro ch hch
  exact List.mem_append.mpr (Or.inl (List.mem_append.mpr (Or.inr hch)))

theorem prefix_take_of_le (t u v : Str) (k : Nat) (hp : t <+: u ++ v)
    (hl : t.length ≤ u.length + k) : t <+: u ++ v.take k := by
  have ht : t = (u ++ v).take t.length := List.prefix_iff_eq_take.mp hp
  have heq : (u ++ v.take k).take t.length = (u ++ v).take t.length := by
    rw [List.take_append_eq_append_take, List.take_append_eq_append_take,
        List.take_take]
    congr 1
    rw [min_eq_left (by omega)]
  rw [List.prefix_iff_eq_take, heq, ← ht]

theorem occursIn_split_not_mem (t x y : Str) (q : Char) (hq : q ∉ t)
    (h : occursIn t (x ++ q :: y) = true) :
    occursIn t x = true ∨ occursIn t y = true := by
  induction x with
  | nil =>
    simp only [List.nil_append, occursIn, Bool.or_eq_true] at h
    rcases h with hp | h'
    · cases t with
      | nil => exact Or.inl (occursIn_nil_left _)
      | cons a t' =>
        have := (List.cons_prefix_cons.mp (List.isPrefixOf_iff_prefix.mp hp)).1
        exact absurd (this ▸ List.mem_cons_self a t') hq
    · exact Or.inr h'
  | cons c x' ih =>
    simp only [List.cons_append, occursIn, Bool.or_eq_true] at h
    rcases h with hp | h'
    · have hp' : t <+: (c :: x') ++ q :: y := by
        rw [List.cons_append]
        exact List.isPrefixOf_iff_prefix.mp hp
      by_cases hlen : t.length ≤ (c :: x').length
      · have htake := prefix_take_of_le t (c :: x') (q :: y) 0 hp' (by omega)
        simp only [List.take_zero, List.append_nil] at htake
        exact Or.inl (occursIn_of_prefixOf _ _ htake)
      · exfalso
        have ht : t = ((c :: x') ++ q :: y).take t.length :=
          List.prefix_iff_eq_take.mp hp'
        have hqt : q ∈ t := by
          rw [ht, List.take_append_eq_append_take]
          obtain ⟨n, hn⟩ : ∃ n, t.length - (c :: x').length = n + 1 :=
            ⟨t.length - (c :: x').length - 1, by omega⟩
          rw [hn]
          simp
        exact hq hqt
    · rcases ih h' with hx' | hy
      · refine Or.inl ?_
        simp only [occursIn, Bool.or_eq_true]
        exact Or.inr hx'
      · exact Or.inr hy

theorem replaceFirst_of_isPrefixOf (s t r : Str) (h : t.isPrefixOf s = true) :
    replaceFirst s t r = r ++ List.drop t.length s := by
  cases s with
  | nil => simp [replaceFirst, h]
  | cons c rest => simp [replaceFirst, h]

theorem replaceFirst_append_site (t suf r : Str) :
    replaceFirst (t ++ suf) t r = r ++ suf := by
  rw [replaceFirst_of_isPrefixOf (t ++ suf) t r
    (List.isPrefixOf_iff_prefix.mpr (List.prefix_append t suf))]
  rw [List.drop_left t suf]

theorem replaceFirst_skip (t r : Str) (ht : t ≠ []) :
    ∀ (A s : Str), occursIn t (A ++ s.take (t.length - 1)) = false →
      replaceFirst (A ++ s) t r = A ++ replaceFirst s t r := by
  intro A
  induction A with
  | nil => intro s _; simp
  | cons c A' ih =>
    intro s h
    have hlen1 : 1 ≤ t.length := List.length_pos.mpr ht
    have hnp : ¬ (t.isPrefixOf (c :: (A' ++ s)) = true) := by
      intro hp
      have hp' : t <+: (c :: A') ++ s := by
        rw [List.cons_append]
        exact List.isPrefixOf_iff_prefix.mp hp
      have hlen : t.length ≤ (c :: A').length + (t.length - 1) := by
        simp only [List.length_cons]
        omega
      have htake := prefix_take_of_le t (c :: A') s (t.length - 1) hp' hlen
      have hocc := occursIn_of_prefixOf _ _ htake
      rw [h] at hocc
      exact Bool.false_ne_true hocc
    have hstep : replaceFirst ((c :: A') ++ s) t r = c :: replaceFirst (A' ++ s) t r := by
      rw [List.cons_append]
      simp only [replaceFirst]
      rw [if_neg hnp]
    rw [hstep]
    have h' : occursIn t (A' ++ s.take (t.length - 1)) = false := by
      rw [List.cons_append] at h
      simp only [occursIn, Bool.or_eq_false_iff] at h
      exact h.2
    rw [ih s h', List.cons_append]

theorem strBind_id_of (f : Char → Str) (v : Str) (h : ∀ ch ∈ v, f ch = [ch]) :
    strBind v f = v := by
  induction v with
  | nil => rfl
  | cons c rest ih =>
    simp only [strBind, h c (List.mem_cons_self c rest),
      ih (fun ch hch => h ch (List.mem_cons_of_mem c hch))]
    rfl

theorem escapeValue_id (v : Str) (h : ∀ ch ∈ v, ch ≠ bsl ∧ ch ≠ dq) :
    escapeValue v = v := by
  have h1 : strBind v escBackslash = v :=
    strBind_id_of _ _ (fun ch hch => by simp [escBackslash, (h ch hch).1])
  rw [escapeValue, h1]
  exact strBind_id_of _ _ (fun ch hch => by simp [escQuote, (h ch hch).2])

theorem inputSite_take6 (X : Str) : (inputSite ++ X).take 6 = "input(".toList := by
  rw [List.take_append_eq_append_take]
  rw [show (6 - inputSite.length) = 0 from rfl]
  rw [List.take_zero, List.append_nil]
  decide

end AIAgent

namespace AIAgent

/-! ## C7: substitution of callback values for input sites -/

/-- Counterexample to claim C7: with two identical `input()` sites and
a first returned value that itself contains the site text, the second
replacement consumes the occurrence reintroduced inside the first
substituted literal instead of the second remaining unreplaced original
occurrence — the second original site survives unreplaced, so the 1:1
successive-occurrence correspondence does not hold for every choice of
returned values. -/
theorem replace_inputs_reintroduction_ce :
    _replace_inputs "x = input()\ny = input()".toList
        ["input()".toList, "B".toList] =
      "x = \"\"B\"\"\ny = input()".toList ∧
    "x = \"\"B\"\"\ny = input()".toList ≠ "x = \"input()\"\ny = \"B\"".toList := by
  constructor
  · decide
  · decide

/-- Claim C7 (amended): for each request in order, the resolver
replaces the first occurrence of that request's exact siteText in the
current, partially substituted text with a double-quoted literal of the
returned value in which backslash and quote characters are escaped;
identical site texts map 1:1 to successive occurrences — preserving
multiplicity — only when the substituted literals do not reintroduce a
site occurrence: here proved for two no-argument sites `input()` and
returned values free of quote, backslash and `(` characters, where the
escaping is the identity and both occurrences are replaced
positionally. -/
theorem replace_inputs_successive (a b c v1 v2 : Str)
    (hdet : _detect_inputs (a ++ inputSite ++ b ++ inputSite ++ c) =
      [(inputSite, defaultPrompt), (inputSite, defaultPrompt)])
    (h1 : occursIn inputSite (a ++ "input(".toList) = false)
    (h2 : occursIn inputSite (b ++ "input(".toList) = false)
    (hv1 : ∀ ch ∈ v1, ch ≠ dq ∧ ch ≠ bsl ∧ ch ≠ '(')
    (hv2 : ∀ ch ∈ v2, ch ≠ dq ∧ ch ≠ bsl) :
    _replace_inputs (a ++ inputSite ++ b ++ inputSite ++ c) [v1, v2] =
      a ++ (dq :: (v1 ++ [dq])) ++ b ++ (dq :: (v2 ++ [dq])) ++ c := by
  have hsite_ne : inputSite ≠ [] := by decide
  have hlen6 : inputSite.length - 1 = 6 := rfl
  have hlit1 : quoteLit v1 = dq :: (v1 ++ [dq]) := by
    rw [quoteLit, escapeValue_id v1 (fun ch h => ⟨(hv1 ch h).2.1, (hv1 ch h).1⟩)]
  have hlit2 : quoteLit v2 = dq :: (v2 ++ [dq]) := by
    rw [quoteLit, escapeValue_id v2 (fun ch h => ⟨(hv2 ch h).2, (hv2 ch h).1⟩)]
  have code_eq : a ++ inputSite ++ b ++ inputSite ++ c =
      a ++ (inputSite ++ (b ++ (inputSite ++ c))) := by
    simp [List.append_assoc]
  have hskip1 : occursIn inputSite
      (a ++ (inputSite ++ (b ++ (inputSite ++ c))).take (inputSite.length - 1)) = false := by
    rw [hlen6, inputSite_take6]
    exact h1
  have step1 : replaceFirst (a ++ (inputSite ++ (b ++ (inputSite ++ c))))
      inputSite (quoteLit v1) = a ++ (quoteLit v1 ++ (b ++ (inputSite ++ c))) := by
    rw [replaceFirst_skip inputSite (quoteLit v1) hsite_ne a _ hskip1,
        replaceFirst_append_site]
  have hskip2core : occursIn inputSite
      ((a ++ ((dq :: (v1 ++ [dq])) ++ b)) ++ "input(".toList) = false := by
    cases hocc : occursIn inputSite
        ((a ++ ((dq :: (v1 ++ [dq])) ++ b)) ++ "input(".toList) with
    | false => rfl
    | true =>
      exfalso
      have hqn : dq ∉ inputSite := by decide
      have hre : (a ++ ((dq :: (v1 ++ [dq])) ++ b)) ++ "input(".toList
          = a ++ (dq :: (v1 ++ (dq :: (b ++ "input(".toList)))) := by
        simp [List.append_assoc]
      rw [hre] at hocc
      rcases occursIn_split_not_mem inputSite a
          (v1 ++ (dq :: (b ++ "input(".toList))) dq hqn hocc with hA | hY
      · have := occursIn_append_left inputSite a "input(".toList hA
        rw [h1] at this
        exact Bool.false_ne_true this
      · rcases occursIn_split_not_mem inputSite v1 (b ++ "input(".toList) dq hqn hY
            with hV | hB
        · have hpin : '(' ∈ inputSite := by decide
          exact (hv1 '(' (mem_of_occursIn _ _ hV '(' hpin)).2.2 rfl
        · rw [h2] at hB
          exact Bool.false_ne_true hB
  have hskip2 : occursIn inputSite
      ((a ++ ((dq :: (v1 ++ [dq])) ++ b)) ++ (inputSite ++ c).take (inputSite.length - 1))
        = false := by
    rw [hlen6, inputSite_take6]
    exact hskip2core
  have hshape : a ++ ((dq :: (v1 ++ [dq])) ++ (b ++ (inputSite ++ c))) =
      (a ++ ((dq :: (v1 ++ [dq])) ++ b)) ++ (inputSite ++ c) := by
    simp [List.append_assoc]
  have step2 : replaceFirst (a ++ ((dq :: (v1 ++ [dq])) ++ (b ++ (inputSite ++ c))))
      inputSite (quoteLit v2) =
      (a ++ ((dq :: (v1 ++ [dq])) ++ b)) ++ ((dq :: (v2 ++ [dq])) ++ c) := by
    rw [hshape,
        replaceFirst_skip inputSite (quoteLit v2) hsite_ne _ _ hskip2,
        replaceFirst_append_site, hlit2]
  show _replace_inputs (a ++ inputSite ++ b ++ inputSite ++ c) [v1, v2] = _
  rw [_replace_inputs, hdet]
  simp only [List.zip_cons_cons, List.zip_nil_right, List.foldl_cons, List.foldl_nil]
  rw [code_eq, step1, hlit1, step2]
  simp [List.append_assoc]

/-- Witness for the amended C7: two `input()` sites replaced in order
by `Ada` and `B`. -/
theorem replace_inputs_successive_witness :
    _replace_inputs ("x = ".toList ++ inputSite ++ "\ny = ".toList ++ inputSite ++ [])
        ["Ada".toList, "B".toList] =
      "x = ".toList ++ (dq :: ("Ada".toList ++ [dq])) ++ "\ny = ".toList ++
        (dq :: ("B".toList ++ [dq])) ++ [] :=
  replace_inputs_successive "x = ".toList "\ny = ".toList [] "Ada".toList "B".toList
    (by decide) (by decide) (by decide) (by decide) (by decide)

end AIAgent

namespace AIAgent

/-! ## Fuel adequacy of the scanner

Every successful pattern match consumes at least one character, so the
`s.length` fuel of `_detect_inputs` never runs out: any fuel of at
least `s.length` computes the same request list. -/

theorem dropWs_length_le (s : Str) : (dropWs s).length ≤ s.length := by
  induction s with
  | nil => simp [dropWs]
  | cons c rest ih =>
    simp only [dropWs]
    cases hsp : pyIsSpace c with
    | true => simp only [if_true]; simp only [List.length_cons]; omega
    | false => simp

theorem wsThenParen_length_lt (s r : Str) (h : wsThenParen s = some r) :
    r.length < s.length := by
  cases hd : dropWs s with
  | nil => simp [wsThenParen, hd] at h
  | cons c rest =>
    by_cases hc : c = ')'
    · have hform : wsThenParen s = some rest := by simp [wsThenParen, hd, hc]
      rw [hform] at h
      have : rest = r := by injection h
      subst this
      have hle := dropWs_length_le s
      rw [hd] at hle
      simp only [List.length_cons] at hle
      omega
    · have hform : wsThenParen s = none := by simp [wsThenParen, hd, hc]
      rw [hform] at h
      simp at h

theorem lazyClose_length_lt :
    ∀ (s content r : Str), lazyClose s = some (content, r) → r.length < s.length := by
  intro s
  induction s with
  | nil => intro content r h; simp [lazyClose] at h
  | cons c rest ih =>
    intro content r h
    by_cases hq : isQuote c = true
    · cases hw : wsThenParen rest with
      | some r2 =>
        have hform : lazyClose (c :: rest) = some ([], r2) := by
          simp [lazyClose, hq, hw]
        rw [hform] at h
        simp only [Option.some.injEq, Prod.mk.injEq] at h
        obtain ⟨h1, h2⟩ := h
        subst h2
        have := wsThenParen_length_lt rest r2 hw
        simp only [List.length_cons]
        omega
      | none =>
        cases hl : lazyClose rest with
        | some p =>
          obtain ⟨ct, r2⟩ := p
          have hform : lazyClose (c :: rest) = some (c :: ct, r2) := by
            simp [lazyClose, hq, hw, hl]
          rw [hform] at h
          simp only [Option.some.injEq, Prod.mk.injEq] at h
          obtain ⟨h1, h2⟩ := h
          subst h2
          have := ih ct r2 hl
          simp only [List.length_cons]
          omega
        | none =>
          have hform : lazyClose (c :: rest) = none := by simp [lazyClose, hq, hw, hl]
          rw [hform] at h
          simp at h
    · by_cases hn : c = '\n'
      · have hform : lazyClose (c :: rest) = none := by
          subst hn
          simp [lazyClose, show isQuote '\n' = false from rfl]
        rw [hform] at h
        simp at h
      · cases hl : lazyClose rest with
        | some p =>
          obtain ⟨ct, r2⟩ := p
          have hform : lazyClose (c :: rest) = some (c :: ct, r2) := by
            simp [lazyClose, hq, hn, hl]
          rw [hform] at h
          simp only [Option.some.injEq, Prod.mk.injEq] at h
          obtain ⟨h1, h2⟩ := h
          subst h2
          have := ih ct r2 hl
          simp only [List.length_cons]
          omega
        | none =>
          have hform : lazyClose (c :: rest) = none := by simp [lazyClose, hq, hn, hl]
          rw [hform] at h
          simp at h

theorem matchArgClose_length_lt (s : Str) (g : Option Str) (r : Str)
    (h : matchArgClose s = some (g, r)) : r.length < s.length := by
  cases s with
  | nil => simp [matchArgClose] at h
  | cons c rest =>
    have hfall : ∀ (heq : matchArgClose (c :: rest) =
        (match wsThenParen (c :: rest) with
          | some r2 => some ((none : Option Str), r2)
          | none => none)), r.length < (c :: rest).length := by
      intro heq
      cases hw : wsThenParen (c :: rest) with
      | some r2 =>
        rw [heq, hw] at h
        simp only [Option.some.injEq, Prod.mk.injEq] at h
        obtain ⟨h1, h2⟩ := h
        subst h2
        exact wsThenParen_length_lt _ _ hw
      | none =>
        rw [heq, hw] at h
        simp at h
    by_cases hcf : c = 'f'
    · cases rest with
      | nil => simp [matchArgClose, hcf] at h
      | cons q rest2 =>
        by_cases hq : isQuote q = true
        · cases hl : lazyClose rest2 with
          | some p =>
            obtain ⟨ct, r2⟩ := p
            have hform : matchArgClose (c :: q :: rest2) = some (some ct, r2) := by
              simp [matchArgClose, hcf, hq, hl]
            rw [hform] at h
            simp only [Option.some.injEq, Prod.mk.injEq] at h
            obtain ⟨h1, h2⟩ := h
            subst h2
            have := lazyClose_length_lt rest2 ct r2 hl
            simp only [List.length_cons]
            omega
          | none =>
            exact hfall (by simp [matchArgClose, hcf, hq, hl])
        · exact hfall (by simp [matchArgClose, hcf, hq])
    · by_cases hq : isQuote c = true
      · cases hl : lazyClose rest with
        | some p =>
          obtain ⟨ct, r2⟩ := p
          have hform : matchArgClose (c :: rest) = some (some ct, r2) := by
            simp [matchArgClose, hcf, hq, hl]
          rw [hform] at h
          simp only [Option.some.injEq, Prod.mk.injEq] at h
          obtain ⟨h1, h2⟩ := h
          subst h2
          have := lazyClose_length_lt rest ct r2 hl
          simp only [List.length_cons]
          omega
        | none =>
          exact hfall (by simp [matchArgClose, hcf, hq, hl])
      · exact hfall (by simp [matchArgClose, hcf, hq])

theorem matchInputAt_length_lt (s : Str) (g : Option Str) (r : Str)
    (h : matchInputAt s = some (g, r)) : r.length < s.length := by
  match s with
  | [] => simp [matchInputAt] at h
  | [c1] => simp [matchInputAt] at h
  | [c1, c2] => simp [matchInputAt] at h
  | [c1, c2, c3] => simp [matchInputAt] at h
  | [c1, c2, c3, c4] => simp [matchInputAt] at h
  | c1 :: c2 :: c3 :: c4 :: c5 :: rest =>
    by_cases hc : c1 = 'i' ∧ c2 = 'n' ∧ c3 = 'p' ∧ c4 = 'u' ∧ c5 = 't'
    · cases hd : dropWs rest with
      | nil => simp [matchInputAt, hc.1, hc.2.1, hc.2.2.1, hc.2.2.2.1, hc.2.2.2.2, hd] at h
      | cons c rest2 =>
        by_cases hpar : c = '('
        · have hform : matchInputAt (c1 :: c2 :: c3 :: c4 :: c5 :: rest) =
              matchArgClose (dropWs rest2) := by
            simp [matchInputAt, hc.1, hc.2.1, hc.2.2.1, hc.2.2.2.1, hc.2.2.2.2, hd, hpar]
          rw [hform] at h
          have hlt := matchArgClose_length_lt _ _ _ h
          have hle1 := dropWs_length_le rest2
          have hle2 := dropWs_length_le rest
          rw [hd] at hle2
          simp only [List.length_cons] at hle2 ⊢
          omega
        · simp [matchInputAt, hc.1, hc.2.1, hc.2.2.1, hc.2.2.2.1, hc.2.2.2.2, hd, hpar] at h
    · have hform : matchInputAt (c1 :: c2 :: c3 :: c4 :: c5 :: rest) = none := by
        simp only [matchInputAt]
        rw [if_neg hc]
      rw [hform] at h
      simp at h

theorem scanInputs_congr :
    ∀ (n fuel fuel2 : Nat) (s : Str), s.length ≤ n → s.length ≤ fuel →
      s.length ≤ fuel2 → scanInputs fuel s = scanInputs fuel2 s := by
  intro n
  induction n with
  | zero =>
    intro fuel fuel2 s h0 _ _
    have hs : s = [] := List.length_eq_zero.mp (by omega)
    subst hs
    cases fuel <;> cases fuel2 <;> rfl
  | succ m ih =>
    intro fuel fuel2 s hn h1 h2
    cases s with
    | nil => cases fuel <;> cases fuel2 <;> rfl
    | cons c rest =>
      simp only [List.length_cons] at hn h1 h2
      obtain ⟨f, rfl⟩ : ∃ f, fuel = f + 1 := ⟨fuel - 1, by omega⟩
      obtain ⟨f2, rfl⟩ : ∃ f2, fuel2 = f2 + 1 := ⟨fuel2 - 1, by omega⟩
      simp only [scanInputs]
      cases hm : matchInputAt (c :: rest) with
      | none => exact ih f f2 rest (by omega) (by omega) (by omega)
      | some gr =>
        obtain ⟨g, r⟩ := gr
        have hlt := matchInputAt_length_lt _ _ _ hm
        simp only [List.length_cons] at hlt
        simp only [ih f f2 r (by omega) (by omega) (by omega)]

theorem scanInputs_fuel_stable (fuel : Nat) (s : Str) (h : s.length ≤ fuel) :
    scanInputs fuel s = _detect_inputs s :=
  scanInputs_congr fuel fuel s.length s h h (Nat.le_refl _)

end AIAgent
